import Mathlib

/-!
Verification of the warcraft-rs M2 model tooling: the chunk reader, chunk
codecs, model load/save, the version converter, the skin dual-header parser,
and the ANIM conversion subsystem. The repository ships the CLI command layer
(`src/warcraft-rs/src/commands/m2.rs`) and the chunk module surface
(`src/file-formats/graphics/wow-m2/src/chunks/mod.rs`); the codec and
converter bodies live outside the shipped sources, so those parts are
modelled from the specification, faithful to its words, and the CLI handlers
are embedded directly from the shipped Rust.
-/

namespace WarcraftRs

/-- Modelled from the spec: `FormatVersion` / `M2Version`, an ordered
enumeration of expansion releases (§3).  The enum body is not under `src/`;
only its name and uses (`M2Version::from_expansion_name`) appear there. -/
inductive M2Version where
  | classic
  | tbc
  | wotlk
  | cata
  | mop
  | wod
  | legion
  | bfa
deriving DecidableEq, Repr

/-- Internal ordinal of a version; the enumeration is totally ordered by it. -/
def M2Version.ord : M2Version → Nat
  | .classic => 0
  | .tbc => 1
  | .wotlk => 2
  | .cata => 3
  | .mop => 4
  | .wod => 5
  | .legion => 6
  | .bfa => 7

/-- Version comparison: `verLe a b` means `a` is not newer than `b`. -/
def verLe (a b : M2Version) : Bool := a.ord ≤ b.ord

/-- Modelled from the spec: `M2Version::from_expansion_name` maps a human
expansion name (or patch string such as "3.3.5a") to a version (§6). -/
def M2Version.from_expansion_name (s : String) : Except String M2Version :=
  if s = "Classic" ∨ s = "1.12.1" then .ok .classic
  else if s = "TBC" ∨ s = "2.4.3" then .ok .tbc
  else if s = "WotLK" ∨ s = "3.3.5a" then .ok .wotlk
  else if s = "Cataclysm" ∨ s = "4.3.4" then .ok .cata
  else if s = "MoP" ∨ s = "5.4.8" then .ok .mop
  else if s = "WoD" ∨ s = "6.2.4" then .ok .wod
  else if s = "Legion" ∨ s = "7.3.5" then .ok .legion
  else if s = "BfA" ∨ s = "8.3.7" then .ok .bfa
  else .error s

/-! ## Byte-level helpers

Bytes are `Nat` values below 256; a buffer is a `List Nat`.  Multi-byte
integers are little-endian, with wrap-around written explicitly as `% 256`. -/
/-- Little-endian bytes of a 32-bit word. -/
def u32ToBytes (n : Nat) : List Nat :=
  [n % 256, n / 256 % 256, n / 65536 % 256, n / 16777216 % 256]

/-- Read a 32-bit little-endian word from four bytes. -/
def readU32 (b0 b1 b2 b3 : Nat) : Nat :=
  b0 + 256 * b1 + 65536 * b2 + 16777216 * b3

/-- Little-endian bytes of a 16-bit word. -/
def u16ToBytes (n : Nat) : List Nat := [n % 256, n / 256 % 256]

/-- Read a 16-bit little-endian word from two bytes. -/
def readU16 (b0 b1 : Nat) : Nat := b0 + 256 * b1

/-! ## Chunk data model

Modelled from the spec (§3, §4.2): the chunk codec corpus is outside the
shipped sources (`src/.../chunks/mod.rs` only re-exports the codec modules),
so a representative closed set of typed chunks is modelled here: bones
(structural, referenced by index), a particle emitter whose payload gains a
trailing field in later versions, a texture file-id table legal only in
newer versions, a physics chunk flagged required-for-model-integrity, and an
opaque raw chunk preserving unknown tags for forward compatibility. -/
/-- One bone record: parent index and flags, both 32-bit. -/
structure BoneRec where
  parent : Nat
  flags : Nat
deriving DecidableEq, Repr

/-- Typed chunk values, one constructor per chunk kind. -/
inductive ChunkVal where
  | bone (bones : List BoneRec)
  | emtr (boneIndex rate lifetime gravity : Nat)
  | txid (ids : List Nat)
  | phys (strength : Nat)
  | raw (tag : List Nat) (payload : List Nat)
deriving DecidableEq, Repr

/-- The kind of a chunk value (which chunk type it is). -/
inductive ChunkKind where
  | bone
  | emtr
  | txid
  | phys
  | raw
deriving DecidableEq, Repr

def ChunkVal.kind : ChunkVal → ChunkKind
  | .bone _ => .bone
  | .emtr _ _ _ _ => .emtr
  | .txid _ => .txid
  | .phys _ => .phys
  | .raw _ _ => .raw

/-- The 4-byte tag of each known chunk kind (ASCII BONE, EMTR, TXID, PHYS). -/
def knownTagBytes : ChunkKind → List Nat
  | .bone => [66, 79, 78, 69]
  | .emtr => [69, 77, 84, 82]
  | .txid => [84, 88, 73, 68]
  | .phys => [80, 72, 89, 83]
  | .raw => []

/-- The 4-byte tag emitted for a chunk value. -/
def ChunkVal.tagBytes : ChunkVal → List Nat
  | .raw t _ => t
  | v => knownTagBytes v.kind

/-- Recognize a known tag. -/
def kindOfTag (t : List Nat) : Option ChunkKind :=
  if t = knownTagBytes .bone then some .bone
  else if t = knownTagBytes .emtr then some .emtr
  else if t = knownTagBytes .txid then some .txid
  else if t = knownTagBytes .phys then some .phys
  else none

/-- Tag-level legality: which chunk kinds a version admits (§3
`FormatVersion` layout rules).  `txid` and `phys` exist only from WotLK on;
unknown tags are always passed through opaquely (§4.1, design note). -/
def tagLegal (ver : M2Version) : ChunkKind → Bool
  | .bone => true
  | .emtr => true
  | .txid => verLe .wotlk ver
  | .phys => verLe .wotlk ver
  | .raw => true

/-- Value-level legality: the version admits the kind and the value carries
no field the version's layout cannot represent (the emitter's trailing
`gravity` field exists only from Cataclysm on, §4.2). -/
def legalValAt (v : ChunkVal) (ver : M2Version) : Bool :=
  tagLegal ver v.kind &&
    match v with
    | .emtr _ _ _ g => verLe .cata ver || g == 0
    | _ => true

/-- Well-formedness of a chunk value: every field fits its machine width and
list lengths stay within the encodable range. -/
def wfVal : ChunkVal → Bool
  | .bone bs => bs.length ≤ 65536 &&
      bs.all (fun b => b.parent < 4294967296 && b.flags < 4294967296)
  | .emtr b r l g => b < 4294967296 && r < 4294967296 &&
      l < 4294967296 && g < 4294967296
  | .txid ids => ids.length ≤ 65536 && ids.all (· < 4294967296)
  | .phys s => s < 4294967296
  | .raw t p => t.length = 4 && t.all (· < 256) && kindOfTag t = none &&
      p.all (· < 256) && p.length < 4294967296

/-! ## Chunk codecs (§4.2)

`encodeChunk v ver` produces the payload bytes of `v` under version `ver`;
`decodePayload k payload ver` parses a payload of kind `k` back.  The
emitter codec branches strictly on the version parameter: before Cataclysm
its payload is 12 bytes, from Cataclysm on a trailing 32-bit gravity field
is appended. -/
def encodeBoneRecs : List BoneRec → List Nat
  | [] => []
  | b :: bs => u32ToBytes b.parent ++ u32ToBytes b.flags ++ encodeBoneRecs bs

def decodeBoneRecs : List Nat → Option (List BoneRec)
  | [] => some []
  | b0 :: b1 :: b2 :: b3 :: c0 :: c1 :: c2 :: c3 :: rest =>
      (decodeBoneRecs rest).map
        (fun bs => ⟨readU32 b0 b1 b2 b3, readU32 c0 c1 c2 c3⟩ :: bs)
  | _ => none

def encodeU32List : List Nat → List Nat
  | [] => []
  | n :: ns => u32ToBytes n ++ encodeU32List ns

def decodeU32List : List Nat → Option (List Nat)
  | [] => some []
  | b0 :: b1 :: b2 :: b3 :: rest =>
      (decodeU32List rest).map (fun ns => readU32 b0 b1 b2 b3 :: ns)
  | _ => none

/-- Encode a typed chunk's payload at a version. -/
def encodeChunk (v : ChunkVal) (ver : M2Version) : List Nat :=
  match v with
  | .bone bs => encodeBoneRecs bs
  | .emtr b r l g =>
      u32ToBytes b ++ u32ToBytes r ++ u32ToBytes l ++
        (if verLe .cata ver then u32ToBytes g else [])
  | .txid ids => encodeU32List ids
  | .phys s => u32ToBytes s
  | .raw _ p => p

/-- Parse errors of the load path (§7). -/
inductive ParseError where
  | Truncated
  | InvalidMagic
  | IllegalChunkForVersion
  | DuplicateChunk
  | UnknownVersion
  | MalformedPayload
deriving DecidableEq, Repr

/-- Decode a known kind's payload at a version. -/
def decodePayload (k : ChunkKind) (p : List Nat) (ver : M2Version) :
    Except ParseError ChunkVal :=
  match k with
  | .bone =>
      match decodeBoneRecs p with
      | some bs => .ok (.bone bs)
      | none => .error .MalformedPayload
  | .emtr =>
      if verLe .cata ver then
        match p with
        | [b0, b1, b2, b3, r0, r1, r2, r3, l0, l1, l2, l3, g0, g1, g2, g3] =>
            .ok (.emtr (readU32 b0 b1 b2 b3) (readU32 r0 r1 r2 r3)
              (readU32 l0 l1 l2 l3) (readU32 g0 g1 g2 g3))
        | _ => .error .MalformedPayload
      else
        match p with
        | [b0, b1, b2, b3, r0, r1, r2, r3, l0, l1, l2, l3] =>
            .ok (.emtr (readU32 b0 b1 b2 b3) (readU32 r0 r1 r2 r3)
              (readU32 l0 l1 l2 l3) 0)
        | _ => .error .MalformedPayload
  | .txid =>
      match decodeU32List p with
      | some ids => .ok (.txid ids)
      | none => .error .MalformedPayload
  | .phys =>
      match p with
      | [s0, s1, s2, s3] => .ok (.phys (readU32 s0 s1 s2 s3))
      | _ => .error .MalformedPayload
  | .raw => .error .MalformedPayload

/-- Decode one chunk record's payload, dispatching on its tag: a known tag
uses its codec and is rejected when the version forbids it; an unknown tag
round-trips as an opaque raw chunk (§4.1 forward compatibility). -/
def decodeDispatch (tag : List Nat) (p : List Nat) (ver : M2Version) :
    Except ParseError ChunkVal :=
  match kindOfTag tag with
  | some k =>
      if tagLegal ver k then decodePayload k p ver
      else .error .IllegalChunkForVersion
  | none => .ok (.raw tag p)

/-! ## Chunk Reader (§4.1)

Modelled from the spec: the `ChunkReader` implementation lives in the
`infrastructure` module, which is re-exported but not shipped under `src/`
(`src/file-formats/graphics/wow-m2/src/chunks/mod.rs:32`).  It splits a byte
buffer into (4-byte tag, 32-bit little-endian size, payload slice) records,
failing with `Truncated` when fewer than 8 bytes remain at a header position
or when a declared size exceeds the remaining bytes.  The Lean function is
total, so it can neither panic nor read out of bounds. -/
structure ChunkRecord where
  tag : List Nat
  size : Nat
  payload : List Nat
deriving DecidableEq, Repr

def readChunks : List Nat → Except ParseError (List ChunkRecord)
  | [] => .ok []
  | t0 :: t1 :: t2 :: t3 :: s0 :: s1 :: s2 :: s3 :: rest =>
      let size := readU32 s0 s1 s2 s3
      if size ≤ rest.length then
        match readChunks (rest.drop size) with
        | .ok rs => .ok (⟨[t0, t1, t2, t3], size, rest.take size⟩ :: rs)
        | .error e => .error e
      else .error .Truncated
  | _ => .error .Truncated
termination_by buf => buf.length
decreasing_by
  simp [List.length_drop]
  omega

/-- The size field a buffer declares for its first chunk (0 when no full
header is present). -/
def declaredSize : List Nat → Nat
  | _ :: _ :: _ :: _ :: s0 :: s1 :: s2 :: s3 :: _ => readU32 s0 s1 s2 s3
  | _ => 0

/-! ## Model aggregate: load and save (§3, §4.3)

Modelled from the spec: `M2Model` owns fixed header fields (a magic, the
declared version, a bounding radius) and the decoded chunks in source
order.  `save` re-encodes every chunk at the model's version after the
12-byte fixed header; `load` parses the header, runs the chunk reader and
dispatches every record to its codec, rejecting duplicate tags and chunks
the declared version forbids. -/
def m2Magic : List Nat := [77, 68, 50, 49]

structure M2Model where
  version : M2Version
  boundingRadius : Nat
  chunks : List ChunkVal
deriving DecidableEq, Repr

def versionFromOrd (n : Nat) : Option M2Version :=
  if n = 0 then some .classic
  else if n = 1 then some .tbc
  else if n = 2 then some .wotlk
  else if n = 3 then some .cata
  else if n = 4 then some .mop
  else if n = 5 then some .wod
  else if n = 6 then some .legion
  else if n = 7 then some .bfa
  else none

/-- A chunk with its 8-byte header, as written by `save`. -/
def encodeChunkFull (v : ChunkVal) (ver : M2Version) : List Nat :=
  v.tagBytes ++ u32ToBytes (encodeChunk v ver).length ++ encodeChunk v ver

def encodeChunksAll : List ChunkVal → M2Version → List Nat
  | [], _ => []
  | v :: vs, ver => encodeChunkFull v ver ++ encodeChunksAll vs ver

/-- Serialize a model: fixed header then every chunk at the model's
declared version. -/
def saveM2 (m : M2Model) : List Nat :=
  m2Magic ++ u32ToBytes m.version.ord ++ u32ToBytes m.boundingRadius ++
    encodeChunksAll m.chunks m.version

/-- Decode every chunk record, rejecting duplicate tags. -/
def decodeRecs : List ChunkRecord → M2Version → List (List Nat) →
    Except ParseError (List ChunkVal)
  | [], _, _ => .ok []
  | r :: rs, ver, seen =>
      if r.tag ∈ seen then .error .DuplicateChunk
      else
        match decodeDispatch r.tag r.payload ver with
        | .ok v =>
            match decodeRecs rs ver (r.tag :: seen) with
            | .ok vs => .ok (v :: vs)
            | .error e => .error e
        | .error e => .error e

/-- Parse a model from bytes. -/
def loadM2 (buf : List Nat) : Except ParseError M2Model :=
  match buf with
  | m0 :: m1 :: m2 :: m3 :: v0 :: v1 :: v2 :: v3 :: r0 :: r1 :: r2 :: r3 :: rest =>
      if [m0, m1, m2, m3] = m2Magic then
        match versionFromOrd (readU32 v0 v1 v2 v3) with
        | some ver =>
            match readChunks rest with
            | .ok recs =>
                match decodeRecs recs ver [] with
                | .ok chunks => .ok ⟨ver, readU32 r0 r1 r2 r3, chunks⟩
                | .error e => .error e
            | .error e => .error e
        | none => .error .UnknownVersion
      else .error .InvalidMagic
  | _ => .error .Truncated

/-! ## Model validity and the load/save round-trip (C1) -/
/-- Canonical chunk ordering rank: structural chunks first, then dependent
chunks, with unknown raw chunks trailing (§4.3 mandated output order,
§4.4 dependency order). -/
def canonicalRank : ChunkVal → Nat
  | .bone _ => 0
  | .emtr _ _ _ _ => 1
  | .txid _ => 2
  | .phys _ => 3
  | .raw _ _ => 4

/-- No tag occurs twice. -/
def tagsNodupB : List (List Nat) → Bool
  | [] => true
  | t :: ts => decide (t ∉ ts) && tagsNodupB ts

/-- Chunks appear in non-decreasing canonical rank. -/
def ranksOrderedB : List ChunkVal → Bool
  | [] => true
  | [_] => true
  | a :: b :: rest =>
      decide (canonicalRank a ≤ canonicalRank b) && ranksOrderedB (b :: rest)

/-- A valid model: header fields in range, chunks well-formed and legal for
the declared version, at most one chunk per tag (§3), and chunks held in the
canonical order the declared version mandates on output (§4.3). -/
def validModel (m : M2Model) : Prop :=
  m.boundingRadius < 4294967296 ∧
  (∀ v ∈ m.chunks, wfVal v = true) ∧
  (∀ v ∈ m.chunks, legalValAt v m.version = true) ∧
  tagsNodupB (m.chunks.map ChunkVal.tagBytes) = true ∧
  ranksOrderedB m.chunks = true

instance (m : M2Model) : Decidable (validModel m) :=
  inferInstanceAs (Decidable (m.boundingRadius < 4294967296 ∧
    (∀ v ∈ m.chunks, wfVal v = true) ∧
    (∀ v ∈ m.chunks, legalValAt v m.version = true) ∧
    tagsNodupB (m.chunks.map ChunkVal.tagBytes) = true ∧
    ranksOrderedB m.chunks = true))

/-! ## Validation (§4.3, §7)

Modelled from the spec: `M2Model::validate` checks referential integrity and
accumulates every finding into a list instead of stopping at the first one.
The checks modelled: the particle emitter's bone reference must exist in the
bone list, and every bone's parent index must be in bounds (the all-ones
32-bit value marks "no parent"). -/
/-- The value marking "no parent" on a bone. -/
def noParent : Nat := 4294967295

inductive ValidationError where
  | DanglingBoneRef (idx : Nat)
  | OutOfBoundsParent (boneIdx parent : Nat)
deriving DecidableEq, Repr

/-- The model's bone list (empty when no bone chunk is present). -/
def bonesOf (m : M2Model) : List BoneRec :=
  match m.chunks.findSome?
      (fun c => match c with | .bone bs => some bs | _ => none) with
  | some bs => bs
  | none => []

/-- The model's particle emitter fields, when present. -/
def emtrOf (m : M2Model) : Option (Nat × Nat × Nat × Nat) :=
  m.chunks.findSome?
    (fun c => match c with | .emtr b r l g => some (b, r, l, g) | _ => none)

/-- All out-of-bounds parent findings, one per offending bone. -/
def parentViolations (bs : List BoneRec) : List ValidationError :=
  bs.enum.filterMap fun p =>
    if p.2.parent ≠ noParent ∧ bs.length ≤ p.2.parent then
      some (.OutOfBoundsParent p.1 p.2.parent)
    else none

/-- Validate a model, accumulating every violation (not fail-fast). -/
def validate (m : M2Model) : List ValidationError :=
  (match emtrOf m with
   | some (b, _, _, _) =>
       if (bonesOf m).length ≤ b then [.DanglingBoneRef b] else []
   | none => []) ++
  parentViolations (bonesOf m)

/-- A violation is semantically present in a model.  Spoken declaratively,
independent of how `validate` walks the chunks. -/
def violationHolds (m : M2Model) : ValidationError → Prop
  | .DanglingBoneRef i =>
      (∃ r l g, emtrOf m = some (i, r, l, g)) ∧ (bonesOf m).length ≤ i
  | .OutOfBoundsParent i p =>
      ∃ b, (bonesOf m).get? i = some b ∧ b.parent = p ∧ p ≠ noParent ∧
        (bonesOf m).length ≤ p

/-! ## Version Converter (§4.4)

Modelled from the spec: the orchestrator walks a fixed, dependency-ordered
list of known chunk kinds.  A present chunk the target forbids is dropped
unless flagged required-for-integrity (`CannotDropRequiredChunk`); a chunk
the target requires but the source lacks is synthesized when a safe
zero-cost default is documented, otherwise `MissingRequiredChunk`; a chunk
present and legal in both is transformed by the per-chunk converter, which
reports explicit `FieldOverflow` instead of silently truncating.  The result
is re-validated; failure is `PostConversionValidationFailed`.  The per-chunk
converter embeds the `VersionConverter` trait of
`src/file-formats/graphics/wow-m2/src/chunks/mod.rs:56-67`: it consumes the
chunk by shared reference (a pure function here) and returns a new value of
the same `Self` type. -/
inductive ConversionError where
  | CannotDropRequiredChunk
  | MissingRequiredChunk
  | FieldOverflow
  | PostConversionValidationFailed
deriving DecidableEq, Repr

/-- Per-chunk version conversion (the `VersionConverter` trait method
`convert_to_version`): pure in the source chunk, total per chunk kind.  The
emitter's gravity field cannot be represented before Cataclysm; a nonzero
value there is an explicit `FieldOverflow`, never silent truncation. -/
def convert_to_version (c : ChunkVal) (target_version : M2Version) :
    Except ConversionError ChunkVal :=
  match c with
  | .emtr b r l g =>
      if verLe .cata target_version then .ok (.emtr b r l g)
      else if g = 0 then .ok (.emtr b r l 0)
      else .error .FieldOverflow
  | c => .ok c

/-- Dependency-ordered walk list: structural chunks before referencing ones. -/
def canonicalKinds : List ChunkKind := [.bone, .emtr, .txid, .phys]

/-- Chunk kinds whose loss would break model integrity (may not be dropped). -/
def requiredForIntegrity : ChunkKind → Bool
  | .phys => true
  | _ => false

/-- Chunk kinds a target version requires to be present. -/
def requiredInVersion (t : M2Version) : ChunkKind → Bool
  | .bone => true
  | .txid => verLe .bfa t
  | _ => false

/-- Documented safe zero-cost defaults (the empty file-id table). -/
def safeDefault : ChunkKind → Option ChunkVal
  | .txid => some (.txid [])
  | _ => none

def chunkOfKind (chunks : List ChunkVal) (k : ChunkKind) : Option ChunkVal :=
  chunks.find? (fun c => c.kind == k)

/-- Walk the known kinds in dependency order, building the target chunk
list. -/
def convertChunks (chunks : List ChunkVal) (t : M2Version) :
    List ChunkKind → Except ConversionError (List ChunkVal)
  | [] => .ok []
  | k :: ks =>
      match chunkOfKind chunks k with
      | some c =>
          if tagLegal t k then
            match convert_to_version c t with
            | .ok c2 =>
                match convertChunks chunks t ks with
                | .ok rest => .ok (c2 :: rest)
                | .error e => .error e
            | .error e => .error e
          else if requiredForIntegrity k then .error .CannotDropRequiredChunk
          else convertChunks chunks t ks
      | none =>
          if requiredInVersion t k then
            match safeDefault k with
            | some d =>
                match convertChunks chunks t ks with
                | .ok rest => .ok (d :: rest)
                | .error e => .error e
            | none => .error .MissingRequiredChunk
          else convertChunks chunks t ks

/-- Unknown chunks pass through conversion opaquely (design note §9). -/
def rawChunksOf (chunks : List ChunkVal) : List ChunkVal :=
  chunks.filter (fun c => c.kind == .raw)

/-- Whole-model conversion (`M2Converter::convert`): all chunk transforms,
then the declared version is set and the result re-validated; any failure
surfaces as an error with no partial model published. -/
def convertModel (m : M2Model) (t : M2Version) :
    Except ConversionError M2Model :=
  match convertChunks m.chunks t canonicalKinds with
  | .ok known =>
      let m2 : M2Model := ⟨t, m.boundingRadius, known ++ rawChunksOf m.chunks⟩
      if validate m2 = [] then .ok m2
      else .error .PostConversionValidationFailed
  | .error e => .error e

/-- The CLI caller's state (`handle_convert` in
`src/warcraft-rs/src/commands/m2.rs:191-215` holds the loaded model and
passes it to `convert` by shared reference); conversion is embedded as
explicit state passing. -/
structure CallerState where
  model : M2Model
deriving DecidableEq, Repr

/-- Conversion as observed by the caller: the model slot it owns, paired
with the conversion result. -/
def convertCall (s : CallerState) (t : M2Version) :
    CallerState × Except ConversionError M2Model :=
  (s, convertModel s.model t)

/-! ## ANIM subsystem (§4.6)

Modelled from the spec: the `AnimFile` body is outside the shipped sources;
its shape (format, metadata with legacy structure hints or modern header and
entry table, sections with per-bone keyframe tracks) and the signature of
`convert` — it returns an `AnimFile`, not a `Result`, as the call in
`handle_anim_convert` (`src/warcraft-rs/src/commands/m2.rs:395`) shows —
follow the spec and the CLI caller. -/
structure AnimKeyframe where
  time : Nat
  value : Nat
  interpolation : Nat
deriving DecidableEq, Repr

structure BoneAnimation where
  translation : List AnimKeyframe
  rotation : List AnimKeyframe
  scaling : List AnimKeyframe
deriving DecidableEq, Repr

structure AnimSectionHeader where
  id : Nat
  start : Nat
  end_ : Nat
deriving DecidableEq, Repr

structure AnimSection where
  header : AnimSectionHeader
  bone_animations : List BoneAnimation
deriving DecidableEq, Repr

structure StructureHints where
  appears_valid : Bool
  estimated_blocks : Nat
  has_timestamps : Bool
deriving DecidableEq, Repr

structure AnimEntry where
  id : Nat
  offset : Nat
  size : Nat
deriving DecidableEq, Repr

structure AnimHeader where
  version : Nat
  id_count : Nat
  anim_entry_offset : Nat
deriving DecidableEq, Repr

inductive AnimMetadata where
  | Legacy (file_size animation_count : Nat) (structure_hints : StructureHints)
  | Modern (header : AnimHeader) (entries : List AnimEntry)
deriving DecidableEq, Repr

inductive AnimFormat where
  | Legacy
  | Modern
deriving DecidableEq, Repr

structure AnimFile where
  format : AnimFormat
  metadata : AnimMetadata
  sections : List AnimSection
deriving DecidableEq, Repr

def AnimFile.animation_count (a : AnimFile) : Nat := a.sections.length

def AnimFile.is_legacy_format (a : AnimFile) : Bool := a.format == .Legacy

/-- The one on-disk format each target version requires: a single version
threshold separates the Legacy-required range from the Modern-required
range. -/
def requiredAnimFormat (v : M2Version) : AnimFormat :=
  if verLe .legion v then .Modern else .Legacy

/-- The version tag written into a modern ANIM header for a target version. -/
def animVersionNumber (v : M2Version) : Nat := v.ord

/-- The version tag a file carries, when its format has one (only the
modern header is self-describing). -/
def animVersionTag (a : AnimFile) : Option Nat :=
  match a.metadata with
  | .Modern h _ => some h.version
  | .Legacy _ _ _ => none

/-- Approximate byte size of one section under the fixed per-keyframe size
model (translation and scaling 12 bytes per keyframe, rotation 16). -/
def sectionByteSize (s : AnimSection) : Nat :=
  12 + s.bone_animations.foldl
    (fun acc ba => acc + 12 * ba.translation.length +
      16 * ba.rotation.length + 12 * ba.scaling.length) 0

/-- Synthesize a modern entry table from the section structure, one entry
per section with running offsets. -/
def synthEntries : List AnimSection → Nat → List AnimEntry
  | [], _ => []
  | s :: ss, off =>
      ⟨s.header.id, off, sectionByteSize s⟩ ::
        synthEntries ss (off + sectionByteSize s)

/-- Refresh the version tag of metadata without transcoding. -/
def updateMetadataVersion (md : AnimMetadata) (t : M2Version) : AnimMetadata :=
  match md with
  | .Modern h es => .Modern ⟨animVersionNumber t, h.id_count, h.anim_entry_offset⟩ es
  | md => md

/-- `AnimFile::convert`: total — every input, including a legacy file whose
heuristic detection had low confidence, yields a best-effort result; the
codomain is `AnimFile`, not a `Result`.  When the target's required format
already matches, only the version tag is refreshed; otherwise the file is
transcoded with the per-section keyframe data carried over. -/
def AnimFile.convert (a : AnimFile) (t : M2Version) : AnimFile :=
  let req := requiredAnimFormat t
  if req = a.format then
    ⟨a.format, updateMetadataVersion a.metadata t, a.sections⟩
  else
    match req with
    | .Modern =>
        ⟨.Modern,
          .Modern ⟨animVersionNumber t, a.sections.length, 16⟩
            (synthEntries a.sections 16),
          a.sections⟩
    | .Legacy =>
        ⟨.Legacy,
          .Legacy (a.sections.foldl (fun acc s => acc + sectionByteSize s) 0)
            a.sections.length
            ⟨true, a.sections.length, true⟩,
          a.sections⟩

/-! ## Skin parser (§4.5)

Modelled from the spec: the skin file has two header shapes — a fixed
legacy header of six 32-bit fields (counts and inline absolute offsets for
the vertex-index, triangle-index and submesh tables) and a modern
chunk-tagged header (a `SKIN` magic wrapping the same pointer table, so all
offsets shift by the 4-byte tag).  Both normalize to one `SkinData`.  `load`
selects the variant by the leading-byte heuristic; `save` re-encodes with
the variant the skin carries — its signature, visible at the call in
`handle_skin_convert` (`src/warcraft-rs/src/commands/m2.rs:294`), takes no
target version. -/
structure SkinSubmesh where
  id : Nat
  index_start : Nat
  index_count : Nat
deriving DecidableEq, Repr

structure SkinData where
  submeshes : List SkinSubmesh
  triangles : List Nat
  vertices : List Nat
deriving DecidableEq, Repr

inductive SkinVariant where
  | legacy
  | modern
deriving DecidableEq, Repr

structure Skin where
  variant : SkinVariant
  data : SkinData
deriving DecidableEq, Repr

def skinMagic : List Nat := [83, 75, 73, 78]

def encodeU16List : List Nat → List Nat
  | [] => []
  | n :: ns => u16ToBytes n ++ encodeU16List ns

def decodeU16List : List Nat → Option (List Nat)
  | [] => some []
  | b0 :: b1 :: rest => (decodeU16List rest).map (fun ns => readU16 b0 b1 :: ns)
  | _ => none

def encodeSubmeshes : List SkinSubmesh → List Nat
  | [] => []
  | s :: ss => u32ToBytes s.id ++ u32ToBytes s.index_start ++
      u32ToBytes s.index_count ++ encodeSubmeshes ss

def decodeSubmeshes : List Nat → Option (List SkinSubmesh)
  | [] => some []
  | a0 :: a1 :: a2 :: a3 :: b0 :: b1 :: b2 :: b3 :: c0 :: c1 :: c2 :: c3 :: rest =>
      (decodeSubmeshes rest).map
        (fun ss => ⟨readU32 a0 a1 a2 a3, readU32 b0 b1 b2 b3,
          readU32 c0 c1 c2 c3⟩ :: ss)
  | _ => none

/-- Read a 32-bit little-endian word at an absolute offset. -/
def readU32At (buf : List Nat) (i : Nat) : Option Nat :=
  match buf.drop i with
  | b0 :: b1 :: b2 :: b3 :: _ => some (readU32 b0 b1 b2 b3)
  | _ => none

/-- Bounds-checked slice of `len` bytes at absolute offset `ofs`. -/
def sliceBytes (buf : List Nat) (ofs len : Nat) : Except ParseError (List Nat) :=
  if ofs + len ≤ buf.length then .ok ((buf.drop ofs).take len)
  else .error .Truncated

/-- The pointer table and data of a skin, laid out with all offsets
absolute from buffer start; `base` is the byte position of the table
(0 for the legacy shape, 4 after the modern `SKIN` tag). -/
def skinTableBytes (d : SkinData) (base : Nat) : List Nat :=
  u32ToBytes d.vertices.length ++
  (u32ToBytes (base + 24) ++
  (u32ToBytes d.triangles.length ++
  (u32ToBytes (base + 24 + (encodeU16List d.vertices).length) ++
  (u32ToBytes d.submeshes.length ++
  (u32ToBytes (base + 24 + (encodeU16List d.vertices).length +
      (encodeU16List d.triangles).length) ++
  (encodeU16List d.vertices ++
  (encodeU16List d.triangles ++
  encodeSubmeshes d.submeshes)))))))

/-- Parse the pointer table at byte position `base` and resolve its inline
offsets to the three normalized lists. -/
def loadSkinTable (buf : List Nat) (base : Nat) : Except ParseError SkinData :=
  match readU32At buf base, readU32At buf (base + 4), readU32At buf (base + 8),
      readU32At buf (base + 12), readU32At buf (base + 16),
      readU32At buf (base + 20) with
  | some nV, some ofsV, some nT, some ofsT, some nS, some ofsS =>
      match sliceBytes buf ofsV (2 * nV), sliceBytes buf ofsT (2 * nT),
          sliceBytes buf ofsS (12 * nS) with
      | .ok vb, .ok tb, .ok sb =>
          match decodeU16List vb, decodeU16List tb, decodeSubmeshes sb with
          | some verts, some tris, some subs => .ok ⟨subs, tris, verts⟩
          | _, _, _ => .error .MalformedPayload
      | _, _, _ => .error .Truncated
  | _, _, _, _, _, _ => .error .Truncated

def encodeSkinLegacy (d : SkinData) : List Nat := skinTableBytes d 0

def encodeSkinModern (d : SkinData) : List Nat := skinMagic ++ skinTableBytes d 4

/-- `Skin::load`: the leading-byte heuristic selects the header variant. -/
def Skin.load (buf : List Nat) : Except ParseError Skin :=
  if buf.take 4 = skinMagic then
    match loadSkinTable buf 4 with
    | .ok d => .ok ⟨.modern, d⟩
    | .error e => .error e
  else
    match loadSkinTable buf 0 with
    | .ok d => .ok ⟨.legacy, d⟩
    | .error e => .error e

/-- `Skin::save`: re-encodes with the variant the skin carries; there is no
version parameter in its signature. -/
def Skin.save (s : Skin) : List Nat :=
  match s.variant with
  | .legacy => encodeSkinLegacy s.data
  | .modern => encodeSkinModern s.data

/-- The header variant the spec says a target version implies (§4.5:
legacy-fixed for old versions, chunk-tagged for new). -/
def skinVariantForVersion (v : M2Version) : SkinVariant :=
  if verLe .legion v then .modern else .legacy

/-- Embedded from `handle_skin_convert`
(`src/warcraft-rs/src/commands/m2.rs:282-299`): load the skin, parse the
target version, save — the parsed target version is printed but never
passed to any conversion or to `save`. -/
def handle_skin_convert (input : List Nat) (version_str : String) :
    Except String (List Nat) :=
  match Skin.load input with
  | .error _ => .error "Failed to load Skin file"
  | .ok skin =>
      match M2Version.from_expansion_name version_str with
      | .error _ => .error "Invalid target version"
      | .ok _target_version => .ok (Skin.save skin)

/-- Well-formed skin data: list lengths and field values fit the encoded
field widths. -/
def wfSkinData (d : SkinData) : Prop :=
  d.vertices.length ≤ 65535 ∧ (∀ n ∈ d.vertices, n < 65536) ∧
  d.triangles.length ≤ 65535 ∧ (∀ n ∈ d.triangles, n < 65536) ∧
  d.submeshes.length ≤ 65535 ∧
  (∀ s ∈ d.submeshes, s.id < 4294967296 ∧ s.index_start < 4294967296 ∧
    s.index_count < 4294967296)

instance (d : SkinData) : Decidable (wfSkinData d) :=
  inferInstanceAs (Decidable (d.vertices.length ≤ 65535 ∧
    (∀ n ∈ d.vertices, n < 65536) ∧
    d.triangles.length ≤ 65535 ∧ (∀ n ∈ d.triangles, n < 65536) ∧
    d.submeshes.length ≤ 65535 ∧
    (∀ s ∈ d.submeshes, s.id < 4294967296 ∧ s.index_start < 4294967296 ∧
      s.index_count < 4294967296)))

/-! ## Concrete inputs used by the claim witnesses -/
/-- A valid Cataclysm model exercising every chunk kind, including an
unknown raw chunk. -/
def demoModel : M2Model :=
  ⟨.cata, 100,
    [.bone [⟨noParent, 0⟩, ⟨0, 1⟩],
     .emtr 0 5 10 2,
     .txid [7],
     .phys 3,
     .raw [90, 90, 90, 90] [1, 2, 3]]⟩

/-- A model lacking the required bone chunk, so conversion fails. -/
def demoNoBone : M2Model := ⟨.wotlk, 0, [.emtr 0 1 2 0]⟩

/-- A model with a dangling emitter bone reference and an out-of-bounds
bone parent: two violations at once. -/
def demoBadModel : M2Model := ⟨.cata, 0, [.bone [⟨5, 0⟩], .emtr 9 1 1 1]⟩

/-- The spec's truncation scenario: an 8-byte header declaring a 100-byte
payload in a 10-byte buffer. -/
def truncatedDemo : List Nat := [84, 69, 83, 84] ++ u32ToBytes 100 ++ [1, 2]

/-- A small skin: one submesh over three indices. -/
def demoSkin : SkinData := ⟨[⟨0, 0, 3⟩], [0, 1, 2], [0, 1, 2]⟩

def demoLegacySkinBytes : List Nat := encodeSkinLegacy demoSkin

/-- A modern-format ANIM file with one section and one keyframe. -/
def demoAnim : AnimFile :=
  ⟨.Modern, .Modern ⟨2, 1, 16⟩ [⟨0, 16, 40⟩],
    [⟨⟨0, 0, 1000⟩, [⟨[⟨0, 1, 0⟩], [], []⟩]⟩]⟩

theorem readU32_u32ToBytes (n : Nat) (h : n < 4294967296) :
    readU32 (n % 256) (n / 256 % 256) (n / 65536 % 256) (n / 16777216 % 256) = n := by
  unfold readU32
  omega

theorem readU16_u16ToBytes (n : Nat) (h : n < 65536) :
    readU16 (n % 256) (n / 256 % 256) = n := by
  unfold readU16
  omega

theorem u32ToBytes_length (n : Nat) : (u32ToBytes n).length = 4 := rfl

theorem readChunks_header (t p rest : List Nat) (ht : t.length = 4)
    (hp : p.length < 4294967296) :
    readChunks (t ++ u32ToBytes p.length ++ p ++ rest) =
      match readChunks rest with
      | .ok rs => .ok (⟨t, p.length, p⟩ :: rs)
      | .error e => .error e := by
  match t, ht with
  | [t0, t1, t2, t3], _ =>
    rw [show ([t0, t1, t2, t3] ++ u32ToBytes p.length ++ p ++ rest) =
      t0 :: t1 :: t2 :: t3 :: (p.length % 256) :: (p.length / 256 % 256) ::
        (p.length / 65536 % 256) :: (p.length / 16777216 % 256) ::
        (p ++ rest) by simp [u32ToBytes]]
    rw [readChunks]
    rw [readU32_u32ToBytes p.length hp]
    simp [List.take_left, List.drop_left]

/-! ## Codec round-trip lemmas -/
theorem decodeBoneRecs_encode (bs : List BoneRec)
    (h : bs.all (fun b => b.parent < 4294967296 && b.flags < 4294967296) = true) :
    decodeBoneRecs (encodeBoneRecs bs) = some bs := by
  induction bs with
  | nil => rfl
  | cons b bs ih =>
      simp only [List.all_cons, Bool.and_eq_true, decide_eq_true_eq] at h
      obtain ⟨⟨hp, hf⟩, hrest⟩ := h
      simp only [encodeBoneRecs, u32ToBytes, List.cons_append, List.nil_append]
      simp only [decodeBoneRecs, ih hrest]
      rw [readU32_u32ToBytes b.parent hp, readU32_u32ToBytes b.flags hf]
      rfl

theorem decodeU32List_encode (ns : List Nat)
    (h : ns.all (· < 4294967296) = true) :
    decodeU32List (encodeU32List ns) = some ns := by
  induction ns with
  | nil => rfl
  | cons n ns ih =>
      simp only [List.all_cons, Bool.and_eq_true, decide_eq_true_eq] at h
      obtain ⟨hn, hrest⟩ := h
      simp only [encodeU32List, u32ToBytes, List.cons_append, List.nil_append]
      simp only [decodeU32List, ih hrest]
      rw [readU32_u32ToBytes n hn]
      rfl

theorem encodeBoneRecs_length (bs : List BoneRec) :
    (encodeBoneRecs bs).length = 8 * bs.length := by
  induction bs with
  | nil => rfl
  | cons b bs ih => simp [encodeBoneRecs, u32ToBytes, ih]; omega

theorem encodeU32List_length (ns : List Nat) :
    (encodeU32List ns).length = 4 * ns.length := by
  induction ns with
  | nil => rfl
  | cons n ns ih => simp [encodeU32List, u32ToBytes, ih]; omega

theorem tagBytes_length (v : ChunkVal) (h : wfVal v = true) :
    v.tagBytes.length = 4 := by
  cases v with
  | raw t p =>
      simp only [wfVal, Bool.and_eq_true, decide_eq_true_eq] at h
      exact h.1.1.1.1
  | bone bs => rfl
  | emtr b r l g => rfl
  | txid ids => rfl
  | phys s => rfl

theorem encodeChunk_length_lt (v : ChunkVal) (ver : M2Version)
    (h : wfVal v = true) : (encodeChunk v ver).length < 4294967296 := by
  cases v with
  | bone bs =>
      simp only [wfVal, Bool.and_eq_true, decide_eq_true_eq] at h
      simp only [encodeChunk, encodeBoneRecs_length]
      omega
  | emtr b r l g =>
      simp only [encodeChunk]
      cases verLe .cata ver <;> simp [u32ToBytes]
  | txid ids =>
      simp only [wfVal, Bool.and_eq_true, decide_eq_true_eq] at h
      simp only [encodeChunk, encodeU32List_length]
      omega
  | phys s => simp [encodeChunk, u32ToBytes]
  | raw t p =>
      simp only [wfVal, Bool.and_eq_true, decide_eq_true_eq] at h
      simpa [encodeChunk] using h.2

/-- Shared codec round-trip: at every version where a well-formed chunk
value is legal, decoding the encoded payload under the same version yields
the value back. -/
theorem decodeDispatch_encodeChunk (v : ChunkVal) (ver : M2Version)
    (hwf : wfVal v = true) (hleg : legalValAt v ver = true) :
    decodeDispatch v.tagBytes (encodeChunk v ver) ver = .ok v := by
  cases v with
  | bone bs =>
      simp only [wfVal, Bool.and_eq_true, decide_eq_true_eq] at hwf
      simp [decodeDispatch, ChunkVal.tagBytes, ChunkVal.kind, kindOfTag,
        knownTagBytes, tagLegal, encodeChunk, decodePayload,
        decodeBoneRecs_encode bs hwf.2]
  | emtr b r l g =>
      simp only [wfVal, Bool.and_eq_true, decide_eq_true_eq] at hwf
      obtain ⟨⟨⟨hb, hr⟩, hl⟩, hg⟩ := hwf
      simp only [legalValAt, ChunkVal.kind, tagLegal, Bool.true_and,
        Bool.or_eq_true, beq_iff_eq] at hleg
      cases hcv : verLe .cata ver with
      | true =>
          simp [decodeDispatch, ChunkVal.tagBytes, ChunkVal.kind, kindOfTag,
            knownTagBytes, tagLegal, encodeChunk, decodePayload, hcv,
            u32ToBytes, readU32_u32ToBytes b hb, readU32_u32ToBytes r hr,
            readU32_u32ToBytes l hl, readU32_u32ToBytes g hg]
      | false =>
          have hg0 : g = 0 := by
            rcases hleg with h | h
            · rw [h] at hcv; exact absurd hcv (by simp)
            · exact h
          subst hg0
          simp [decodeDispatch, ChunkVal.tagBytes, ChunkVal.kind, kindOfTag,
            knownTagBytes, tagLegal, encodeChunk, decodePayload, hcv,
            u32ToBytes, readU32_u32ToBytes b hb, readU32_u32ToBytes r hr,
            readU32_u32ToBytes l hl]
  | txid ids =>
      simp only [wfVal, Bool.and_eq_true, decide_eq_true_eq] at hwf
      simp only [legalValAt, ChunkVal.kind, tagLegal, Bool.and_true] at hleg
      simp [decodeDispatch, ChunkVal.tagBytes, ChunkVal.kind, kindOfTag,
        knownTagBytes, tagLegal, hleg, encodeChunk, decodePayload,
        decodeU32List_encode ids hwf.2]
  | phys s =>
      simp only [wfVal, decide_eq_true_eq] at hwf
      simp only [legalValAt, ChunkVal.kind, tagLegal, Bool.and_true] at hleg
      simp [decodeDispatch, ChunkVal.tagBytes, ChunkVal.kind, kindOfTag,
        knownTagBytes, tagLegal, hleg, encodeChunk, u32ToBytes,
        decodePayload, readU32_u32ToBytes s hwf]
  | raw t p =>
      simp only [wfVal, Bool.and_eq_true, decide_eq_true_eq] at hwf
      simp [decodeDispatch, ChunkVal.tagBytes, encodeChunk, hwf.1.1.2]

theorem readChunks_encodeChunksAll (vs : List ChunkVal) (ver : M2Version)
    (h : ∀ v ∈ vs, wfVal v = true) :
    readChunks (encodeChunksAll vs ver) =
      .ok (vs.map fun v =>
        ⟨v.tagBytes, (encodeChunk v ver).length, encodeChunk v ver⟩) := by
  induction vs with
  | nil => simp [encodeChunksAll, readChunks]
  | cons v vs ih =>
      have hv : wfVal v = true := h v (by simp)
      show readChunks
          (v.tagBytes ++ u32ToBytes (encodeChunk v ver).length ++
            encodeChunk v ver ++ encodeChunksAll vs ver) = _
      rw [readChunks_header _ _ _ (tagBytes_length v hv)
        (encodeChunk_length_lt v ver hv)]
      rw [ih (fun w hw => h w (by simp [hw]))]
      rfl

theorem decodeRecs_encoded (vs : List ChunkVal) (ver : M2Version)
    (seen : List (List Nat))
    (hwf : ∀ v ∈ vs, wfVal v = true)
    (hleg : ∀ v ∈ vs, legalValAt v ver = true)
    (hnodup : tagsNodupB (vs.map ChunkVal.tagBytes) = true)
    (hseen : ∀ v ∈ vs, v.tagBytes ∉ seen) :
    decodeRecs
      (vs.map fun v =>
        ⟨v.tagBytes, (encodeChunk v ver).length, encodeChunk v ver⟩)
      ver seen = .ok vs := by
  induction vs generalizing seen with
  | nil => rfl
  | cons v vs ih =>
      simp only [List.map_cons, tagsNodupB, Bool.and_eq_true,
        decide_eq_true_eq] at hnodup
      simp only [List.map_cons]
      rw [decodeRecs]
      rw [if_neg (hseen v (List.mem_cons_self v vs))]
      rw [decodeDispatch_encodeChunk v ver (hwf v (List.mem_cons_self v vs))
        (hleg v (List.mem_cons_self v vs))]
      have hseen2 : ∀ w ∈ vs, w.tagBytes ∉ v.tagBytes :: seen := by
        intro w hw
        simp only [List.mem_cons, not_or]
        constructor
        · intro heq
          exact hnodup.1 (heq ▸ List.mem_map_of_mem ChunkVal.tagBytes hw)
        · exact hseen w (List.mem_cons_of_mem v hw)
      rw [ih (v.tagBytes :: seen) (fun w hw => hwf w (List.mem_cons_of_mem v hw))
        (fun w hw => hleg w (List.mem_cons_of_mem v hw)) hnodup.2 hseen2]

theorem M2Version.ord_lt (v : M2Version) : v.ord < 4294967296 := by
  cases v <;> simp [M2Version.ord]

theorem versionFromOrd_ord (v : M2Version) : versionFromOrd v.ord = some v := by
  cases v <;> rfl

/-- Shared round-trip lemma: loading the bytes a valid model saves yields
the model back. -/
theorem loadM2_saveM2 (m : M2Model) (h : validModel m) :
    loadM2 (saveM2 m) = .ok m := by
  obtain ⟨hrad, hwf, hleg, hnodup, _hord⟩ := h
  have hsave : saveM2 m =
      77 :: 68 :: 50 :: 49 ::
      (m.version.ord % 256) :: (m.version.ord / 256 % 256) ::
      (m.version.ord / 65536 % 256) :: (m.version.ord / 16777216 % 256) ::
      (m.boundingRadius % 256) :: (m.boundingRadius / 256 % 256) ::
      (m.boundingRadius / 65536 % 256) :: (m.boundingRadius / 16777216 % 256) ::
      encodeChunksAll m.chunks m.version := by
    simp [saveM2, m2Magic, u32ToBytes]
  rw [hsave]
  rw [loadM2]
  rw [readU32_u32ToBytes m.version.ord m.version.ord_lt]
  rw [readU32_u32ToBytes m.boundingRadius hrad]
  rw [versionFromOrd_ord]
  simp [m2Magic, readChunks_encodeChunksAll m.chunks m.version hwf,
    decodeRecs_encoded m.chunks m.version [] hwf hleg hnodup (by simp)]

/-- Shared truncation lemma: at any header position (a nonempty buffer),
fewer than 8 remaining bytes, or a declared size exceeding the bytes after
the header, yields `Truncated`. -/
theorem readChunks_truncated (buf : List Nat) (hne : buf ≠ [])
    (h : buf.length < 8 ∨ buf.length - 8 < declaredSize buf) :
    readChunks buf = .error .Truncated := by
  match buf with
  | [] => exact absurd rfl hne
  | t0 :: t1 :: t2 :: t3 :: s0 :: s1 :: s2 :: s3 :: rest =>
      rcases h with h | h
      · simp only [List.length_cons] at h
        omega
      · have hgt : ¬ readU32 s0 s1 s2 s3 ≤ rest.length := by
          simp only [declaredSize, List.length_cons] at h
          omega
        rw [readChunks]
        simp [hgt]
  | [a] => simp [readChunks]
  | [a, b] => simp [readChunks]
  | [a, b, c] => simp [readChunks]
  | [a, b, c, d] => simp [readChunks]
  | [a, b, c, d, e] => simp [readChunks]
  | [a, b, c, d, e, f] => simp [readChunks]
  | [a, b, c, d, e, f, g] => simp [readChunks]

/-- Shared completeness lemma: `validate` omits no violation present in the
model. -/
theorem validate_complete (m : M2Model) (v : ValidationError)
    (h : violationHolds m v) : v ∈ validate m := by
  cases v with
  | DanglingBoneRef i =>
      obtain ⟨⟨r, l, g, hem⟩, hlen⟩ := h
      apply List.mem_append_left
      rw [hem]
      simp [hlen]
  | OutOfBoundsParent i p =>
      obtain ⟨b, hget, hpar, hnp, hlen⟩ := h
      apply List.mem_append_right
      unfold parentViolations
      rw [List.mem_filterMap]
      refine ⟨(i, b), ?_, ?_⟩
      · rw [List.mk_mem_enum_iff_getElem?, ← List.get?_eq_getElem?]
        exact hget
      · rw [if_pos ⟨hpar ▸ hnp, hpar ▸ hlen⟩, hpar]

/-! ## Skin round-trip lemmas -/
theorem encodeU16List_length (ns : List Nat) :
    (encodeU16List ns).length = 2 * ns.length := by
  induction ns with
  | nil => rfl
  | cons n ns ih => simp [encodeU16List, u16ToBytes, ih]; omega

theorem encodeSubmeshes_length (ss : List SkinSubmesh) :
    (encodeSubmeshes ss).length = 12 * ss.length := by
  induction ss with
  | nil => rfl
  | cons s ss ih => simp [encodeSubmeshes, u32ToBytes, ih]; omega

theorem decodeU16List_encode (ns : List Nat) (h : ∀ n ∈ ns, n < 65536) :
    decodeU16List (encodeU16List ns) = some ns := by
  induction ns with
  | nil => rfl
  | cons n ns ih =>
      simp only [encodeU16List, u16ToBytes, List.cons_append, List.nil_append]
      simp only [decodeU16List, ih (fun w hw => h w (by simp [hw]))]
      rw [readU16_u16ToBytes n (h n (by simp))]
      rfl

theorem decodeSubmeshes_encode (ss : List SkinSubmesh)
    (h : ∀ s ∈ ss, s.id < 4294967296 ∧ s.index_start < 4294967296 ∧
      s.index_count < 4294967296) :
    decodeSubmeshes (encodeSubmeshes ss) = some ss := by
  induction ss with
  | nil => rfl
  | cons s ss ih =>
      obtain ⟨h1, h2, h3⟩ := h s (by simp)
      simp only [encodeSubmeshes, u32ToBytes, List.cons_append, List.nil_append]
      simp only [decodeSubmeshes, ih (fun w hw => h w (by simp [hw]))]
      rw [readU32_u32ToBytes s.id h1, readU32_u32ToBytes s.index_start h2,
        readU32_u32ToBytes s.index_count h3]
      rfl

theorem readU32At_concat (pre rest : List Nat) (n i : Nat)
    (hpre : pre.length = i) (hn : n < 4294967296) :
    readU32At (pre ++ (u32ToBytes n ++ rest)) i = some n := by
  unfold readU32At
  rw [List.drop_left' hpre]
  simp only [u32ToBytes, List.cons_append, List.nil_append]
  rw [readU32_u32ToBytes n hn]

theorem loadSkinTable_encode (d : SkinData) (pre : List Nat) (base : Nat)
    (hpre : pre.length = base) (hbase : base ≤ 4) (h : wfSkinData d) :
    loadSkinTable (pre ++ skinTableBytes d base) base = .ok d := by
  obtain ⟨hvl, hvbb, htl, htbb, hsl, hsbb⟩ := h
  have lvb : (encodeU16List d.vertices).length = 2 * d.vertices.length :=
    encodeU16List_length _
  have ltb : (encodeU16List d.triangles).length = 2 * d.triangles.length :=
    encodeU16List_length _
  have lsb : (encodeSubmeshes d.submeshes).length = 12 * d.submeshes.length :=
    encodeSubmeshes_length _
  have r1 : readU32At (pre ++ skinTableBytes d base) base =
      some d.vertices.length := by
    unfold skinTableBytes
    exact readU32At_concat _ _ _ _ hpre (by omega)
  have r2 : readU32At (pre ++ skinTableBytes d base) (base + 4) =
      some (base + 24) := by
    unfold skinTableBytes
    rw [show pre ++ (u32ToBytes d.vertices.length ++ (u32ToBytes (base + 24) ++
        (u32ToBytes d.triangles.length ++
        (u32ToBytes (base + 24 + (encodeU16List d.vertices).length) ++
        (u32ToBytes d.submeshes.length ++
        (u32ToBytes (base + 24 + (encodeU16List d.vertices).length +
            (encodeU16List d.triangles).length) ++
        (encodeU16List d.vertices ++ (encodeU16List d.triangles ++
          encodeSubmeshes d.submeshes)))))))) =
      (pre ++ u32ToBytes d.vertices.length) ++ (u32ToBytes (base + 24) ++
        (u32ToBytes d.triangles.length ++
        (u32ToBytes (base + 24 + (encodeU16List d.vertices).length) ++
        (u32ToBytes d.submeshes.length ++
        (u32ToBytes (base + 24 + (encodeU16List d.vertices).length +
            (encodeU16List d.triangles).length) ++
        (encodeU16List d.vertices ++ (encodeU16List d.triangles ++
          encodeSubmeshes d.submeshes))))))) from by
      simp [List.append_assoc]]
    exact readU32At_concat _ _ _ _ (by simp [hpre, u32ToBytes]) (by omega)
  have r3 : readU32At (pre ++ skinTableBytes d base) (base + 8) =
      some d.triangles.length := by
    unfold skinTableBytes
    rw [show pre ++ (u32ToBytes d.vertices.length ++ (u32ToBytes (base + 24) ++
        (u32ToBytes d.triangles.length ++
        (u32ToBytes (base + 24 + (encodeU16List d.vertices).length) ++
        (u32ToBytes d.submeshes.length ++
        (u32ToBytes (base + 24 + (encodeU16List d.vertices).length +
            (encodeU16List d.triangles).length) ++
        (encodeU16List d.vertices ++ (encodeU16List d.triangles ++
          encodeSubmeshes d.submeshes)))))))) =
      (pre ++ u32ToBytes d.vertices.length ++ u32ToBytes (base + 24)) ++
        (u32ToBytes d.triangles.length ++
        (u32ToBytes (base + 24 + (encodeU16List d.vertices).length) ++
        (u32ToBytes d.submeshes.length ++
        (u32ToBytes (base + 24 + (encodeU16List d.vertices).length +
            (encodeU16List d.triangles).length) ++
        (encodeU16List d.vertices ++ (encodeU16List d.triangles ++
          encodeSubmeshes d.submeshes)))))) from by
      simp [List.append_assoc]]
    exact readU32At_concat _ _ _ _ (by simp [hpre, u32ToBytes]) (by omega)
  have r4 : readU32At (pre ++ skinTableBytes d base) (base + 12) =
      some (base + 24 + (encodeU16List d.vertices).length) := by
    unfold skinTableBytes
    rw [show pre ++ (u32ToBytes d.vertices.length ++ (u32ToBytes (base + 24) ++
        (u32ToBytes d.triangles.length ++
        (u32ToBytes (base + 24 + (encodeU16List d.vertices).length) ++
        (u32ToBytes d.submeshes.length ++
        (u32ToBytes (base + 24 + (encodeU16List d.vertices).length +
            (encodeU16List d.triangles).length) ++
        (encodeU16List d.vertices ++ (encodeU16List d.triangles ++
          encodeSubmeshes d.submeshes)))))))) =
      (pre ++ u32ToBytes d.vertices.length ++ u32ToBytes (base + 24) ++
          u32ToBytes d.triangles.length) ++
        (u32ToBytes (base + 24 + (encodeU16List d.vertices).length) ++
        (u32ToBytes d.submeshes.length ++
        (u32ToBytes (base + 24 + (encodeU16List d.vertices).length +
            (encodeU16List d.triangles).length) ++
        (encodeU16List d.vertices ++ (encodeU16List d.triangles ++
          encodeSubmeshes d.submeshes))))) from by
      simp [List.append_assoc]]
    exact readU32At_concat _ _ _ _ (by simp [hpre, u32ToBytes]) (by omega)
  have r5 : readU32At (pre ++ skinTableBytes d base) (base + 16) =
      some d.submeshes.length := by
    unfold skinTableBytes
    rw [show pre ++ (u32ToBytes d.vertices.length ++ (u32ToBytes (base + 24) ++
        (u32ToBytes d.triangles.length ++
        (u32ToBytes (base + 24 + (encodeU16List d.vertices).length) ++
        (u32ToBytes d.submeshes.length ++
        (u32ToBytes (base + 24 + (encodeU16List d.vertices).length +
            (encodeU16List d.triangles).length) ++
        (encodeU16List d.vertices ++ (encodeU16List d.triangles ++
          encodeSubmeshes d.submeshes)))))))) =
      (pre ++ u32ToBytes d.vertices.length ++ u32ToBytes (base + 24) ++
          u32ToBytes d.triangles.length ++
          u32ToBytes (base + 24 + (encodeU16List d.vertices).length)) ++
        (u32ToBytes d.submeshes.length ++
        (u32ToBytes (base + 24 + (encodeU16List d.vertices).length +
            (encodeU16List d.triangles).length) ++
        (encodeU16List d.vertices ++ (encodeU16List d.triangles ++
          encodeSubmeshes d.submeshes)))) from by
      simp [List.append_assoc]]
    exact readU32At_concat _ _ _ _ (by simp [hpre, u32ToBytes]) (by omega)
  have r6 : readU32At (pre ++ skinTableBytes d base) (base + 20) =
      some (base + 24 + (encodeU16List d.vertices).length +
        (encodeU16List d.triangles).length) := by
    unfold skinTableBytes
    rw [show pre ++ (u32ToBytes d.vertices.length ++ (u32ToBytes (base + 24) ++
        (u32ToBytes d.triangles.length ++
        (u32ToBytes (base + 24 + (encodeU16List d.vertices).length) ++
        (u32ToBytes d.submeshes.length ++
        (u32ToBytes (base + 24 + (encodeU16List d.vertices).length +
            (encodeU16List d.triangles).length) ++
        (encodeU16List d.vertices ++ (encodeU16List d.triangles ++
          encodeSubmeshes d.submeshes)))))))) =
      (pre ++ u32ToBytes d.vertices.length ++ u32ToBytes (base + 24) ++
          u32ToBytes d.triangles.length ++
          u32ToBytes (base + 24 + (encodeU16List d.vertices).length) ++
          u32ToBytes d.submeshes.length) ++
        (u32ToBytes (base + 24 + (encodeU16List d.vertices).length +
            (encodeU16List d.triangles).length) ++
        (encodeU16List d.vertices ++ (encodeU16List d.triangles ++
          encodeSubmeshes d.submeshes))) from by
      simp [List.append_assoc]]
    exact readU32At_concat _ _ _ _ (by simp [hpre, u32ToBytes]) (by omega)
  have hdrSplit : pre ++ skinTableBytes d base =
      (pre ++ u32ToBytes d.vertices.length ++ u32ToBytes (base + 24) ++
        u32ToBytes d.triangles.length ++
        u32ToBytes (base + 24 + (encodeU16List d.vertices).length) ++
        u32ToBytes d.submeshes.length ++
        u32ToBytes (base + 24 + (encodeU16List d.vertices).length +
          (encodeU16List d.triangles).length)) ++
      (encodeU16List d.vertices ++ (encodeU16List d.triangles ++
        encodeSubmeshes d.submeshes)) := by
    unfold skinTableBytes
    simp [List.append_assoc]
  have hlen : (pre ++ skinTableBytes d base).length =
      base + 24 + (encodeU16List d.vertices).length +
        (encodeU16List d.triangles).length +
        (encodeSubmeshes d.submeshes).length := by
    rw [hdrSplit]
    simp only [List.length_append, hpre, u32ToBytes, List.length_cons,
      List.length_nil]
    omega
  have hdrLen : (pre ++ u32ToBytes d.vertices.length ++ u32ToBytes (base + 24) ++
      u32ToBytes d.triangles.length ++
      u32ToBytes (base + 24 + (encodeU16List d.vertices).length) ++
      u32ToBytes d.submeshes.length ++
      u32ToBytes (base + 24 + (encodeU16List d.vertices).length +
        (encodeU16List d.triangles).length)).length = base + 24 := by
    simp only [List.length_append, hpre, u32ToBytes, List.length_cons,
      List.length_nil]
  have s1 : sliceBytes (pre ++ skinTableBytes d base) (base + 24)
      (2 * d.vertices.length) = .ok (encodeU16List d.vertices) := by
    unfold sliceBytes
    rw [if_pos (by rw [hlen]; omega)]
    rw [hdrSplit, List.drop_left' hdrLen]
    rw [List.take_left' lvb]
  have s2 : sliceBytes (pre ++ skinTableBytes d base)
      (base + 24 + (encodeU16List d.vertices).length)
      (2 * d.triangles.length) = .ok (encodeU16List d.triangles) := by
    unfold sliceBytes
    rw [if_pos (by rw [hlen]; omega)]
    rw [hdrSplit, ← List.append_assoc _ (encodeU16List d.vertices)]
    rw [List.drop_left' (by simp only [List.length_append, hdrLen])]
    rw [List.take_left' ltb]
  have s3 : sliceBytes (pre ++ skinTableBytes d base)
      (base + 24 + (encodeU16List d.vertices).length +
        (encodeU16List d.triangles).length)
      (12 * d.submeshes.length) = .ok (encodeSubmeshes d.submeshes) := by
    unfold sliceBytes
    rw [if_pos (by rw [hlen]; omega)]
    rw [hdrSplit, ← List.append_assoc _ (encodeU16List d.vertices),
      ← List.append_assoc _ (encodeU16List d.triangles)]
    rw [List.drop_left' (by simp only [List.length_append, hdrLen])]
    rw [List.take_of_length_le (by omega)]
  unfold loadSkinTable
  rw [r1, r2, r3, r4, r5, r6]
  simp only [s1, s2, s3, decodeU16List_encode d.vertices hvbb,
    decodeU16List_encode d.triangles htbb,
    decodeSubmeshes_encode d.submeshes hsbb]

/-- The legacy encoding never starts with the modern magic: its third
header byte is zero while the magic's is 73. -/
theorem encodeSkinLegacy_no_magic (d : SkinData) (h : wfSkinData d) :
    (encodeSkinLegacy d).take 4 ≠ skinMagic := by
  obtain ⟨hvl, _, _, _, _, _⟩ := h
  have hdiv : d.vertices.length / 65536 = 0 := Nat.div_eq_of_lt (by omega)
  have htake : (encodeSkinLegacy d).take 4 = u32ToBytes d.vertices.length := by
    unfold encodeSkinLegacy skinTableBytes
    exact List.take_left' (u32ToBytes_length _)
  rw [htake]
  simp [u32ToBytes, skinMagic, hdiv]

theorem skin_load_encodeLegacy (d : SkinData) (h : wfSkinData d) :
    Skin.load (encodeSkinLegacy d) = .ok ⟨.legacy, d⟩ := by
  unfold Skin.load
  rw [if_neg (encodeSkinLegacy_no_magic d h)]
  have := loadSkinTable_encode d [] 0 rfl (by omega) h
  rw [List.nil_append] at this
  rw [show encodeSkinLegacy d = skinTableBytes d 0 from rfl, this]

theorem skin_load_encodeModern (d : SkinData) (h : wfSkinData d) :
    Skin.load (encodeSkinModern d) = .ok ⟨.modern, d⟩ := by
  unfold Skin.load
  rw [if_pos (by unfold encodeSkinModern; exact List.take_left' rfl)]
  rw [show encodeSkinModern d = skinMagic ++ skinTableBytes d 4 from rfl]
  rw [loadSkinTable_encode d skinMagic 4 rfl (by omega) h]

/-! ## Converter and ANIM lemmas -/
/-- Per-chunk conversion preserves the chunk kind: a success is always a
value of the same chunk type. -/
theorem convert_to_version_kind (c : ChunkVal) (t : M2Version) (r : ChunkVal)
    (h : convert_to_version c t = .ok r) : r.kind = c.kind := by
  cases c with
  | emtr b rr l g =>
      unfold convert_to_version at h
      by_cases hc : verLe .cata t = true
      · simp [hc] at h
        rw [← h]
      · simp [hc] at h
        by_cases hg : g = 0
        · simp [hg] at h
          rw [← h]
          rfl
        · simp [hg] at h
  | bone bs => simp [convert_to_version] at h; rw [← h]
  | txid ids => simp [convert_to_version] at h; rw [← h]
  | phys s => simp [convert_to_version] at h; rw [← h]
  | raw tg p => simp [convert_to_version] at h; rw [← h]

theorem animConvert_format_matches (a : AnimFile) (t : M2Version)
    (h : requiredAnimFormat t = a.format) :
    (a.convert t).format = a.format ∧ (a.convert t).sections = a.sections ∧
      animVersionTag (a.convert t) =
        (animVersionTag a).map (fun _ => animVersionNumber t) := by
  unfold AnimFile.convert
  rw [if_pos h]
  refine ⟨rfl, rfl, ?_⟩
  cases hm : a.metadata with
  | Legacy fs ac hints => simp [animVersionTag, updateMetadataVersion, hm]
  | Modern hd es => simp [animVersionTag, updateMetadataVersion, hm]

theorem animConvert_total (a : AnimFile) (t : M2Version) :
    (a.convert t).format = requiredAnimFormat t ∧
      (a.convert t).sections = a.sections := by
  unfold AnimFile.convert
  by_cases h : requiredAnimFormat t = a.format
  · rw [if_pos h]
    exact ⟨h.symm, rfl⟩
  · rw [if_neg h]
    cases hr : requiredAnimFormat t <;> simp

/-! ## Claim theorems -/
/-- C1: for every valid model M, saving M and loading the resulting bytes
yields M again, provided no version conversion is applied between save and
load. -/
theorem C1_save_load_round_trip (m : M2Model) (h : validModel m) :
    loadM2 (saveM2 m) = .ok m :=
  loadM2_saveM2 m h

theorem C1_save_load_round_trip_witness :
    validModel demoModel ∧ loadM2 (saveM2 demoModel) = .ok demoModel :=
  ⟨by decide, C1_save_load_round_trip demoModel (by decide)⟩

/-- C2: whenever conversion returns a `ConversionError`, the caller's model
keeps exactly the chunk set and declared version it had before the call;
conversion is all-or-nothing.  The converter consumes the model by shared
reference (`handle_convert`, `src/warcraft-rs/src/commands/m2.rs:203-206`),
embedded here as explicit state passing that returns the caller-owned slot
alongside the result. -/
theorem C2_conversion_atomic (s : CallerState) (t : M2Version)
    (e : ConversionError) (h : (convertCall s t).2 = .error e) :
    (convertCall s t).1.model.chunks = s.model.chunks ∧
      (convertCall s t).1.model.version = s.model.version :=
  ⟨rfl, rfl⟩

theorem C2_conversion_atomic_witness :
    (convertCall ⟨demoNoBone⟩ .classic).2 =
        .error .MissingRequiredChunk ∧
      ((convertCall ⟨demoNoBone⟩ .classic).1.model.chunks =
          demoNoBone.chunks ∧
        (convertCall ⟨demoNoBone⟩ .classic).1.model.version =
          demoNoBone.version) :=
  ⟨rfl, C2_conversion_atomic ⟨demoNoBone⟩ .classic .MissingRequiredChunk rfl⟩

/-- C3: for every chunk codec, every well-formed typed chunk value and
every version at which the value is legal, decoding the bytes produced by
encoding it at that version returns exactly the value. -/
theorem C3_codec_round_trip (v : ChunkVal) (ver : M2Version)
    (hwf : wfVal v = true) (hleg : legalValAt v ver = true) :
    decodeDispatch v.tagBytes (encodeChunk v ver) ver = .ok v :=
  decodeDispatch_encodeChunk v ver hwf hleg

theorem C3_codec_round_trip_witness :
    wfVal (.emtr 1 2 3 4) = true ∧
      legalValAt (.emtr 1 2 3 4) .legion = true ∧
      decodeDispatch (ChunkVal.emtr 1 2 3 4).tagBytes
        (encodeChunk (.emtr 1 2 3 4) .legion) .legion = .ok (.emtr 1 2 3 4) :=
  ⟨by decide, by decide,
    C3_codec_round_trip (.emtr 1 2 3 4) .legion (by decide) (by decide)⟩

/-- C4: the chunk reader returns `Truncated` whenever fewer than 8 bytes
remain at a point where a chunk header is expected, or whenever a chunk's
declared size exceeds the bytes remaining after its header; the reader is a
total function, so it can neither panic nor read out of bounds, and its
recursion on the remaining buffer extends this statement to every header
position. -/
theorem C4_reader_truncated (buf : List Nat) (hne : buf ≠ [])
    (h : buf.length < 8 ∨ buf.length - 8 < declaredSize buf) :
    readChunks buf = .error .Truncated :=
  readChunks_truncated buf hne h

theorem C4_reader_truncated_witness :
    truncatedDemo ≠ [] ∧
      (truncatedDemo.length < 8 ∨
        truncatedDemo.length - 8 < declaredSize truncatedDemo) ∧
      readChunks truncatedDemo = .error .Truncated :=
  ⟨by decide, by decide, C4_reader_truncated truncatedDemo (by decide) (by decide)⟩

/-- C5: a legacy-header buffer and a modern-header buffer encoding the same
semantic skin content load to equal submesh, triangle-index and
vertex-index lists. -/
theorem C5_skin_normalization (d : SkinData) (sl sm : Skin)
    (h : wfSkinData d)
    (hl : Skin.load (encodeSkinLegacy d) = .ok sl)
    (hm : Skin.load (encodeSkinModern d) = .ok sm) :
    sl.data.submeshes = sm.data.submeshes ∧
      sl.data.triangles = sm.data.triangles ∧
      sl.data.vertices = sm.data.vertices := by
  rw [skin_load_encodeLegacy d h] at hl
  rw [skin_load_encodeModern d h] at hm
  simp only [Except.ok.injEq] at hl hm
  rw [← hl, ← hm]
  exact ⟨rfl, rfl, rfl⟩

theorem C5_skin_normalization_witness :
    wfSkinData demoSkin ∧
      Skin.load (encodeSkinLegacy demoSkin) = .ok ⟨.legacy, demoSkin⟩ ∧
      Skin.load (encodeSkinModern demoSkin) = .ok ⟨.modern, demoSkin⟩ ∧
      ((Skin.mk .legacy demoSkin).data.submeshes =
          (Skin.mk .modern demoSkin).data.submeshes ∧
        (Skin.mk .legacy demoSkin).data.triangles =
          (Skin.mk .modern demoSkin).data.triangles ∧
        (Skin.mk .legacy demoSkin).data.vertices =
          (Skin.mk .modern demoSkin).data.vertices) :=
  ⟨by decide, rfl, rfl,
    C5_skin_normalization demoSkin ⟨.legacy, demoSkin⟩ ⟨.modern, demoSkin⟩
      (by decide) rfl rfl⟩

/-- C6: the claim says `save` re-encodes a skin with the header variant the
target version implies.  The shipped `handle_skin_convert` parses the
target version, never passes it to any conversion or to `save` (whose
signature has no version parameter), and writes the bytes back in the
loaded variant: converting a legacy skin to a version that implies the
modern variant emits the legacy encoding unchanged. -/
theorem C6_skin_convert_ignores_target_version :
    handle_skin_convert demoLegacySkinBytes "Legion" =
        .ok demoLegacySkinBytes ∧
      Skin.load demoLegacySkinBytes = .ok ⟨.legacy, demoSkin⟩ ∧
      skinVariantForVersion .legion = .modern :=
  ⟨rfl, rfl, rfl⟩

/-- C7: `validate` accumulates and returns every violation present in the
model, omitting none; it does not stop at the first finding. -/
theorem C7_validate_complete (m : M2Model) (v : ValidationError)
    (h : violationHolds m v) : v ∈ validate m :=
  validate_complete m v h

theorem C7_validate_complete_witness :
    violationHolds demoBadModel (.OutOfBoundsParent 0 5) ∧
      ValidationError.OutOfBoundsParent 0 5 ∈ validate demoBadModel ∧
      validate demoBadModel =
        [.DanglingBoneRef 9, .OutOfBoundsParent 0 5] :=
  ⟨⟨⟨5, 0⟩, rfl, rfl, by decide, by decide⟩,
    C7_validate_complete demoBadModel (.OutOfBoundsParent 0 5)
      ⟨⟨5, 0⟩, rfl, rfl, by decide, by decide⟩,
    rfl⟩

/-- C8: when the target version's required on-disk format equals the
file's format, `convert` keeps the format, keeps every section's keyframe
data unchanged, and refreshes the version tag (where the format carries
one) to the target. -/
theorem C8_anim_format_preserving (a : AnimFile) (t : M2Version)
    (h : requiredAnimFormat t = a.format) :
    (a.convert t).format = a.format ∧ (a.convert t).sections = a.sections ∧
      animVersionTag (a.convert t) =
        (animVersionTag a).map (fun _ => animVersionNumber t) :=
  animConvert_format_matches a t h

theorem C8_anim_format_preserving_witness :
    requiredAnimFormat .bfa = demoAnim.format ∧
      ((demoAnim.convert .bfa).format = demoAnim.format ∧
        (demoAnim.convert .bfa).sections = demoAnim.sections ∧
        animVersionTag (demoAnim.convert .bfa) =
          (animVersionTag demoAnim).map (fun _ => animVersionNumber .bfa)) :=
  ⟨by decide, C8_anim_format_preserving demoAnim .bfa (by decide)⟩

/-- C9: `AnimFile::convert` is total — it returns an `AnimFile` for every
input and target, never an error (its codomain, visible at the call site in
`handle_anim_convert`, is `AnimFile`, not a `Result`): even a legacy input
whose heuristic detection had low confidence yields a best-effort result in
the target's required format with all sections carried over. -/
theorem C9_anim_convert_never_fails (a : AnimFile) (t : M2Version) :
    (a.convert t).format = requiredAnimFormat t ∧
      (a.convert t).sections = a.sections :=
  animConvert_total a t

/-- C10: the `VersionConverter` trait method `convert_to_version` takes the
chunk by shared reference — a pure function here, leaving the source value
untouched by construction — and on success returns a new value of the same
chunk type. -/
theorem C10_convert_preserves_chunk_type (c : ChunkVal) (t : M2Version)
    (r : ChunkVal) (h : convert_to_version c t = .ok r) :
    r.kind = c.kind :=
  convert_to_version_kind c t r h

theorem C10_convert_preserves_chunk_type_witness :
    convert_to_version (.emtr 1 2 3 4) .wod = .ok (.emtr 1 2 3 4) ∧
      (ChunkVal.emtr 1 2 3 4).kind = (ChunkVal.emtr 1 2 3 4).kind :=
  ⟨rfl, C10_convert_preserves_chunk_type (.emtr 1 2 3 4) .wod
    (.emtr 1 2 3 4) rfl⟩

end WarcraftRs

